import Mathlib

/-!
Verification development for a Telegram product-scraper bot (`bot.py`).

The program is embedded shallowly: Python strings become `List Char`,
fallible Python code becomes `Except Unit`-valued functions, the results
of HTML-selector queries become fields of an abstract `Soup` structure,
and outbound messaging becomes a pure list of `Sent` values.  Every
definition mirrors a specific place in `bot.py`; the few definitions that
come from the specification's own words instead are marked as such.
-/

/-! ### Basic string primitives (Python `str` operations over `List Char`) -/

/-- Boolean test that `p` is a prefix of `l` (Python `str.startswith`, and
the literal-matching step of the regex engine). -/
def isPrefL : List Char → List Char → Bool
  | [], _ => true
  | _ :: _, [] => false
  | a :: as, b :: bs => decide (a = b) && isPrefL as bs

theorem isPrefL_iff (p l : List Char) : isPrefL p l = true ↔ ∃ t, l = p ++ t := by
  induction p generalizing l with
  | nil => simp [isPrefL]
  | cons a as ih =>
    cases l with
    | nil => simp [isPrefL]
    | cons b bs =>
      simp only [isPrefL, Bool.and_eq_true, decide_eq_true_eq, ih, List.cons_append,
        List.cons.injEq]
      constructor
      · rintro ⟨rfl, t, rfl⟩; exact ⟨t, rfl, rfl⟩
      · rintro ⟨t, rfl, rfl⟩; exact ⟨rfl, t, rfl⟩

/-- Boolean substring containment (Python `pat in s`). -/
def containsTok (pat : List Char) : List Char → Bool
  | [] => isPrefL pat []
  | c :: rest => isPrefL pat (c :: rest) || containsTok pat rest

/-- Python `s.split(sep)` for a non-empty separator `p0 :: ps`, written with an
explicit skip counter so that the recursion is structural on the input list.
In state `n + 1` the function is consuming the `ps.length` separator
characters following a match; in state `0` it is scanning for the next
match.  Splits are non-overlapping and taken left to right, as in Python. -/
def pySplitAux (p0 : Char) (ps : List Char) : Nat → List Char → List (List Char)
  | 0, [] => [[]]
  | 0, c :: rest =>
    if isPrefL (p0 :: ps) (c :: rest) then
      [] :: pySplitAux p0 ps ps.length rest
    else
      match pySplitAux p0 ps 0 rest with
      | [] => [[]]
      | x :: xs => (c :: x) :: xs
  | _ + 1, [] => [[]]
  | n + 1, _ :: rest => pySplitAux p0 ps n rest

/-- Python `s.split(sep)`; the empty-separator case is unreachable for the
separators the program uses. -/
def splitOn (pat : List Char) (l : List Char) : List (List Char) :=
  match pat with
  | [] => [l]
  | p0 :: ps => pySplitAux p0 ps 0 l

/-- Python `s.split(sep)[0]`. -/
def splitHead (pat : List Char) (l : List Char) : List Char :=
  (splitOn pat l).headD []

/-- Modelled from the spec's words for claim C10: the prefix of `l` strictly
before the first occurrence of `pat` (all of `l` if `pat` never occurs). -/
def takeBeforeFirst (pat : List Char) : List Char → List Char
  | [] => []
  | c :: rest => if isPrefL pat (c :: rest) then [] else c :: takeBeforeFirst pat rest

/-- The six ASCII whitespace characters recognised by Python `str.strip()`. -/
def pySpace (c : Char) : Bool :=
  decide (c = ' ') || decide (c = '\t') || decide (c = '\n') || decide (c = '\r') ||
    decide (c = '\x0b') || decide (c = '\x0c')

/-- Python `str.strip()` (ASCII whitespace). -/
def pyStrip (l : List Char) : List Char :=
  ((l.dropWhile pySpace).reverse.dropWhile pySpace).reverse

/-- Value of an ASCII digit. -/
def digitVal (c : Char) : Option Nat :=
  if c.isDigit then some (c.toNat - 48) else none

/-- Digit-sequence tail of Python `int(...)`: digits with single underscores
allowed between digits. -/
def pyIntDigitsAux : Nat → List Char → Option Nat
  | acc, [] => some acc
  | acc, '_' :: rest =>
    match rest with
    | d :: rest2 =>
      match digitVal d with
      | some k => pyIntDigitsAux (acc * 10 + k) rest2
      | none => none
    | [] => none
  | acc, c :: rest =>
    match digitVal c with
    | some k => pyIntDigitsAux (acc * 10 + k) rest
    | none => none

/-- Unsigned part of Python `int(...)`: must start with a digit. -/
def pyIntNat : List Char → Option Nat
  | [] => none
  | c :: rest =>
    match digitVal c with
    | some k => pyIntDigitsAux k rest
    | none => none

/-- Python `int(s)` on a decimal string: strip whitespace, optional sign,
then a digit sequence; anything else raises `ValueError`, modelled as
`Except.error`. -/
def pyInt (s : List Char) : Except Unit Int :=
  match pyStrip s with
  | '+' :: rest =>
    match pyIntNat rest with
    | some n => Except.ok (n : Int)
    | none => Except.error ()
  | '-' :: rest =>
    match pyIntNat rest with
    | some n => Except.ok (-(n : Int))
    | none => Except.error ()
  | t =>
    match pyIntNat t with
    | some n => Except.ok (n : Int)
    | none => Except.error ()

/-- Python `str.lower()`, restricted to the ASCII case mapping; the marker
tokens the program lowercases against are all ASCII. -/
def toLowerL (u : List Char) : List Char := u.map Char.toLower

/-! ### String constants of `bot.py` -/

def httpL : List Char := ['h', 't', 't', 'p']

def widthL : List Char := ['w', 'i', 'd', 't', 'h', '=']

def w800L : List Char := ['w', 'i', 'd', 't', 'h', '=', '8', '0', '0']

def ampL : List Char := ['&']

def barL : List Char := ['|']

def pSegL : List Char := ['/', 'p', '/']

def pzskuL : List Char := ['p', 'z', 's', 'k', 'u']

def productTokL : List Char := ['p', 'r', 'o', 'd', 'u', 'c', 't']

def pzskuSlashL : List Char := ['/', 'p', 'z', 's', 'k', 'u', '/']

def logoL : List Char := "namshi-logo".toList

/-- Resolution upgrade used in image strategies 1 and 3 of
`extract_product_info` (`bot.py` lines 98-100 and 124-125):
`image_url.split('width=')[0] + 'width=800'` when the URL carries a
`width=` parameter. -/
def upgradeWidth (u : List Char) : List Char :=
  if containsTok widthL u then splitHead widthL u ++ w800L else u

/-! ### Image deduplication / filtering / fallback (`bot.py` lines 128-139) -/

section Dedup

variable {α : Type} [DecidableEq α]

/-- First-occurrence deduplication (`list(dict.fromkeys(...))`): keep an
element iff it has not been seen before. -/
def dedupAux (seen : List α) : List α → List α
  | [] => []
  | x :: xs => if x ∈ seen then dedupAux seen xs else x :: dedupAux (x :: seen) xs

def dedupKeepFirst (l : List α) : List α := dedupAux [] l

theorem dedupAux_sublist (l : List α) : ∀ seen, List.Sublist (dedupAux seen l) l := by
  induction l with
  | nil => intro seen; simp [dedupAux]
  | cons x xs ih =>
    intro seen
    simp only [dedupAux]
    by_cases h : x ∈ seen
    · rw [if_pos h]
      exact List.sublist_cons_of_sublist x (ih seen)
    · rw [if_neg h]
      exact (ih (x :: seen)).cons₂ x

theorem dedupAux_nodup_notmem (l : List α) :
    ∀ seen, (dedupAux seen l).Nodup ∧ ∀ a ∈ dedupAux seen l, a ∉ seen := by
  induction l with
  | nil => intro seen; simp [dedupAux]
  | cons x xs ih =>
    intro seen
    simp only [dedupAux]
    by_cases h : x ∈ seen
    · rw [if_pos h]; exact ih seen
    · rw [if_neg h]
      obtain ⟨nd, hm⟩ := ih (x :: seen)
      refine ⟨List.nodup_cons.mpr ⟨fun hx => ?_, nd⟩, ?_⟩
      · exact (hm x hx) (List.mem_cons_self x seen)
      · intro a ha
        rcases List.mem_cons.mp ha with rfl | ha
        · exact h
        · exact fun hs => (hm a ha) (List.mem_cons_of_mem x hs)

theorem dedupAux_eq_self (l : List α) :
    ∀ seen, l.Nodup → (∀ a ∈ seen, a ∉ l) → dedupAux seen l = l := by
  induction l with
  | nil => intro seen _ _; simp [dedupAux]
  | cons x xs ih =>
    intro seen hnd hdisj
    obtain ⟨hx, hxs⟩ := List.nodup_cons.mp hnd
    have hxseen : x ∉ seen := fun hs => (hdisj x hs) (List.mem_cons_self x xs)
    simp only [dedupAux, if_neg hxseen]
    rw [ih (x :: seen) hxs]
    intro a ha
    rcases List.mem_cons.mp ha with rfl | ha
    · exact hx
    · exact fun hmem => (hdisj a ha) (List.mem_cons_of_mem x hmem)

theorem dedupKeepFirst_sublist (l : List α) : List.Sublist (dedupKeepFirst l) l :=
  dedupAux_sublist l []

theorem dedupKeepFirst_nodup (l : List α) : (dedupKeepFirst l).Nodup :=
  (dedupAux_nodup_notmem l []).1

theorem dedupKeepFirst_eq_self {l : List α} (h : l.Nodup) : dedupKeepFirst l = l :=
  dedupAux_eq_self l [] h (by simp)

theorem dedupKeepFirst_ne_nil {l : List α} (h : l ≠ []) : dedupKeepFirst l ≠ [] := by
  cases l with
  | nil => exact absurd rfl h
  | cons x xs => simp [dedupKeepFirst, dedupAux]

end Dedup

/-- The product-image marker substrings of `bot.py` line 135. -/
def markers : List (List Char) := [pSegL, pzskuL, productTokL, pzskuSlashL]

/-- Keep a URL iff its lowercase form contains one of the marker substrings
(`bot.py` lines 133-136). -/
def keepUrl (u : List Char) : Bool :=
  markers.any (fun pat => containsTok pat (toLowerL u))

/-- The deduplicate / filter / revert step over extracted image URLs
(`bot.py` lines 128-139): deduplicate preserving first-seen order, filter to
marker-bearing URLs, and fall back to the deduplicated list if the filter
removed everything. -/
def resolve (l : List (List Char)) : List (List Char) :=
  if ((dedupKeepFirst l).filter keepUrl).isEmpty then dedupKeepFirst l
  else (dedupKeepFirst l).filter keepUrl

/-- C5: if the marker filter would remove every URL the output is the
deduplicated pre-filter list, and consequently `resolve` never returns an
empty list on a non-empty input. -/
theorem c5_filter_fallback (l : List (List Char)) :
    ((dedupKeepFirst l).filter keepUrl = [] → resolve l = dedupKeepFirst l) ∧
      (l ≠ [] → resolve l ≠ []) := by
  constructor
  · intro h
    unfold resolve
    rw [h]
    simp
  · intro hl
    unfold resolve
    by_cases h : ((dedupKeepFirst l).filter keepUrl).isEmpty = true
    · rw [if_pos h]
      exact dedupKeepFirst_ne_nil hl
    · rw [if_neg h]
      intro hnil
      rw [hnil] at h
      exact h rfl

/-- Witness for C5 at the concrete singleton input `["a"]`, whose only URL
carries no marker. -/
theorem c5_filter_fallback_witness :
    (resolve [['a']] = dedupKeepFirst [['a']]) ∧ resolve [['a']] ≠ [] :=
  ⟨(c5_filter_fallback [['a']]).1 (by decide), (c5_filter_fallback [['a']]).2 (by decide)⟩

/-- C6: the deduplicate / filter / revert step is idempotent. -/
theorem c6_resolve_idempotent (l : List (List Char)) : resolve (resolve l) = resolve l := by
  by_cases h : ((dedupKeepFirst l).filter keepUrl).isEmpty = true
  · have hfe : (dedupKeepFirst l).filter keepUrl = [] := List.isEmpty_iff.mp h
    have h1 : resolve l = dedupKeepFirst l := by unfold resolve; rw [if_pos h]
    rw [h1]
    have hd : dedupKeepFirst (dedupKeepFirst l) = dedupKeepFirst l :=
      dedupKeepFirst_eq_self (dedupKeepFirst_nodup l)
    unfold resolve
    rw [hd, hfe]
    simp
  · have h1 : resolve l = (dedupKeepFirst l).filter keepUrl := by unfold resolve; rw [if_neg h]
    rw [h1]
    have hnd : ((dedupKeepFirst l).filter keepUrl).Nodup :=
      (dedupKeepFirst_nodup l).filter keepUrl
    have hd : dedupKeepFirst ((dedupKeepFirst l).filter keepUrl) =
        (dedupKeepFirst l).filter keepUrl := dedupKeepFirst_eq_self hnd
    have hff : ((dedupKeepFirst l).filter keepUrl).filter keepUrl =
        (dedupKeepFirst l).filter keepUrl :=
      List.filter_eq_self.mpr (fun a ha => (List.mem_filter.mp ha).2)
    unfold resolve
    rw [hd, hff, if_neg h]

/-- C7: the output of `resolve` has no duplicates, is a subsequence of the
input in first-seen order, and is either the filtered deduplicated list or
the full deduplicated fallback. -/
theorem c7_resolve_nodup_sublist (l : List (List Char)) :
    (resolve l).Nodup ∧ List.Sublist (resolve l) l ∧
      (resolve l = (dedupKeepFirst l).filter keepUrl ∨ resolve l = dedupKeepFirst l) := by
  by_cases h : ((dedupKeepFirst l).filter keepUrl).isEmpty = true
  · have h1 : resolve l = dedupKeepFirst l := by unfold resolve; rw [if_pos h]
    rw [h1]
    exact ⟨dedupKeepFirst_nodup l, dedupKeepFirst_sublist l, Or.inr rfl⟩
  · have h1 : resolve l = (dedupKeepFirst l).filter keepUrl := by unfold resolve; rw [if_neg h]
    rw [h1]
    exact ⟨(dedupKeepFirst_nodup l).filter keepUrl,
      (List.filter_sublist _).trans (dedupKeepFirst_sublist l), Or.inl rfl⟩

/-! ### URL classifier (`is_namshi_url`, `bot.py` line 43)

The regex `https?://(?:www\.)?namshi\.com/.*?/p/` is matched with `re.match`,
i.e. anchored at the start of the string only.  `containsPQ` models the
`.*?/p/` part: an occurrence of `/p/` preceded only by non-newline
characters (`.` does not match a newline). -/

def containsPQ : List Char → Bool
  | [] => false
  | c :: rest =>
    if isPrefL pSegL (c :: rest) then true
    else if c = '\n' then false
    else containsPQ rest

def schemeL (secure : Bool) : List Char :=
  if secure then "https://".toList else "http://".toList

def wwwL : List Char := "www.".toList

def domainL : List Char := "namshi.com/".toList

def namshiPrefixes : List (List Char) :=
  [schemeL false ++ domainL, schemeL false ++ wwwL ++ domainL,
    schemeL true ++ domainL, schemeL true ++ wwwL ++ domainL]

/-- `is_namshi_url` of `bot.py`: the regex match succeeds iff one of the four
scheme/`www.` combinations starts the string and the remainder contains `/p/`
before any newline.  The four combinations are mutually exclusive, so trying
them all is equivalent to the regex engine's backtracking. -/
def is_namshi_url (s : List Char) : Bool :=
  namshiPrefixes.any (fun p => isPrefL p s && containsPQ (s.drop p.length))

/-- Modelled from the spec's words for claim C2: the string starts with
`http://` or `https://`, an optional `www.`, the literal `namshi.com/`,
then any run of (non-newline, as `.` requires) characters followed by the
literal `/p/` marker; anything may follow. -/
def specEligible (s : List Char) : Prop :=
  ∃ (secure www : Bool) (mid rest : List Char),
    (∀ ch ∈ mid, ch ≠ '\n') ∧
      s = (schemeL secure ++ (if www then wwwL else []) ++ domainL) ++ (mid ++ pSegL ++ rest)

theorem containsPQ_cons (c : Char) (rest : List Char) :
    containsPQ (c :: rest) =
      if isPrefL pSegL (c :: rest) then true
      else if c = '\n' then false
      else containsPQ rest := rfl

theorem containsPQ_iff (t : List Char) :
    containsPQ t = true ↔
      ∃ mid rest, (∀ ch ∈ mid, ch ≠ '\n') ∧ t = mid ++ pSegL ++ rest := by
  induction t with
  | nil =>
    constructor
    · intro h; exact absurd h (by decide)
    · rintro ⟨mid, rest, -, h⟩
      cases mid <;> simp [pSegL] at h
  | cons c rest ih =>
    rw [containsPQ_cons]
    by_cases hp : isPrefL pSegL (c :: rest) = true
    · rw [if_pos hp]
      obtain ⟨t, ht⟩ := (isPrefL_iff pSegL (c :: rest)).mp hp
      exact ⟨fun _ => ⟨[], t, by simp, by simpa using ht⟩, fun _ => rfl⟩
    · rw [if_neg hp]
      by_cases hc : c = '\n'
      · rw [if_pos hc]
        constructor
        · intro h; exact absurd h (by decide)
        · rintro ⟨mid, r, hmid, heq⟩
          exfalso
          cases mid with
          | nil =>
            exact hp ((isPrefL_iff pSegL _).mpr ⟨r, by simpa using heq⟩)
          | cons m ms =>
            simp only [List.cons_append, List.cons.injEq] at heq
            obtain ⟨rfl, -⟩ := heq
            exact (hmid c (List.mem_cons_self c ms)) hc
      · rw [if_neg hc, ih]
        constructor
        · rintro ⟨mid, r, hmid, rfl⟩
          refine ⟨c :: mid, r, ?_, by simp⟩
          intro ch hch
          rcases List.mem_cons.mp hch with rfl | hch
          · exact hc
          · exact hmid ch hch
        · rintro ⟨mid, r, hmid, heq⟩
          cases mid with
          | nil =>
            exact absurd ((isPrefL_iff pSegL _).mpr ⟨r, by simpa using heq⟩) hp
          | cons m ms =>
            simp only [List.cons_append, List.cons.injEq] at heq
            obtain ⟨rfl, heq⟩ := heq
            exact ⟨ms, r, fun ch hch => hmid ch (List.mem_cons_of_mem _ hch), heq⟩

theorem mem_namshiPrefixes (p : List Char) (hp : p ∈ namshiPrefixes) :
    ∃ (secure www : Bool), p = schemeL secure ++ (if www then wwwL else []) ++ domainL := by
  simp only [namshiPrefixes, List.mem_cons, List.not_mem_nil, or_false] at hp
  rcases hp with rfl | rfl | rfl | rfl
  · exact ⟨false, false, by simp⟩
  · exact ⟨false, true, by simp⟩
  · exact ⟨true, false, by simp⟩
  · exact ⟨true, true, by simp⟩

theorem namshiPrefix_mem (secure www : Bool) :
    schemeL secure ++ (if www then wwwL else []) ++ domainL ∈ namshiPrefixes := by
  cases secure <;> cases www <;> simp [namshiPrefixes]

/-- C2: `is_namshi_url` returns true exactly on the strings matching the
retailer pattern — scheme `http` or `https`, optional `www.`, the domain
`namshi.com/`, an arbitrary (possibly empty) run of non-newline path
characters, then the literal `/p/` marker, anchored at the start with
anything allowed afterwards.  In particular it is false for other domains
and for URLs lacking the `/p/` marker. -/
theorem c2_is_namshi_url_iff (s : List Char) : is_namshi_url s = true ↔ specEligible s := by
  constructor
  · intro h
    obtain ⟨p, hp, hcond⟩ := List.any_eq_true.mp h
    rw [Bool.and_eq_true] at hcond
    obtain ⟨h1, h2⟩ := hcond
    obtain ⟨t, rfl⟩ := (isPrefL_iff p _).mp h1
    rw [List.drop_left] at h2
    obtain ⟨mid, rest, hmid, rfl⟩ := (containsPQ_iff t).mp h2
    obtain ⟨secure, www, rfl⟩ := mem_namshiPrefixes p hp
    exact ⟨secure, www, mid, rest, hmid, rfl⟩
  · rintro ⟨secure, www, mid, rest, hmid, rfl⟩
    apply List.any_eq_true.mpr
    refine ⟨schemeL secure ++ (if www then wwwL else []) ++ domainL,
      namshiPrefix_mem secure www, ?_⟩
    rw [Bool.and_eq_true]
    constructor
    · exact (isPrefL_iff _ _).mpr ⟨mid ++ pSegL ++ rest, rfl⟩
    · rw [List.drop_left]
      exact (containsPQ_iff _).mpr ⟨mid, rest, hmid, rfl⟩

/-! ### Claim C10: the `width=` rewrite -/

theorem pySplitAux_ne_nil (p0 : Char) (ps : List Char) :
    ∀ (l : List Char) (n : Nat), pySplitAux p0 ps n l ≠ [] := by
  intro l
  induction l with
  | nil => intro n; cases n <;> simp [pySplitAux]
  | cons c rest ih =>
    intro n
    cases n with
    | zero =>
      simp only [pySplitAux]
      by_cases hp : isPrefL (p0 :: ps) (c :: rest) = true
      · rw [if_pos hp]; simp
      · rw [if_neg hp]
        cases h : pySplitAux p0 ps 0 rest <;> simp
    | succ n =>
      simp only [pySplitAux]
      exact ih n

theorem pySplitAux_headD (p0 : Char) (ps : List Char) :
    ∀ l : List Char, (pySplitAux p0 ps 0 l).headD [] = takeBeforeFirst (p0 :: ps) l := by
  intro l
  induction l with
  | nil => simp [pySplitAux, takeBeforeFirst]
  | cons c rest ih =>
    simp only [pySplitAux, takeBeforeFirst]
    by_cases hp : isPrefL (p0 :: ps) (c :: rest) = true
    · rw [if_pos hp, if_pos hp]
      simp
    · rw [if_neg hp, if_neg hp]
      obtain ⟨x, xs, hx⟩ := List.exists_cons_of_ne_nil (pySplitAux_ne_nil p0 ps rest 0)
      rw [hx] at ih ⊢
      simp only [List.headD_cons] at ih
      simpa using ih

theorem splitHead_eq_takeBeforeFirst (p0 : Char) (ps l : List Char) :
    splitHead (p0 :: ps) l = takeBeforeFirst (p0 :: ps) l := by
  unfold splitHead splitOn
  exact pySplitAux_headD p0 ps l

/-- C10: for every URL containing `width=`, the resolution-upgrade rewrite of
`bot.py` (`image_url.split('width=')[0] + 'width=800'`) yields exactly the
prefix of the URL before the first occurrence of `width=` followed by the
literal `width=800`, discarding the original width value and everything
after it. -/
theorem c10_width_rewrite (u : List Char) (h : containsTok widthL u = true) :
    upgradeWidth u = takeBeforeFirst widthL u ++ w800L := by
  unfold upgradeWidth
  rw [if_pos h]
  have hw : splitHead widthL u = takeBeforeFirst widthL u :=
    splitHead_eq_takeBeforeFirst 'w' ['i', 'd', 't', 'h', '='] u
  rw [hw]

def c10Url : List Char := "https://cdn.images/p/x?width=320&q=75".toList

/-- Witness for C10 at a concrete URL with a `width=320` parameter followed
by a further query parameter. -/
theorem c10_width_rewrite_witness :
    upgradeWidth c10Url = takeBeforeFirst widthL c10Url ++ w800L :=
  c10_width_rewrite c10Url (by decide)

/-! ### Image extraction strategy 3 (`bot.py` lines 112-126) -/

/-- An `img` element as the extractor sees it: only its `src` attribute
matters (absent attribute = `none`). -/
structure ImgTag where
  src : Option (List Char)
deriving DecidableEq

/-- A `meta` tag as the extractor sees it: only its `content` attribute
matters. -/
structure MetaTag where
  content : Option (List Char)
deriving DecidableEq

/-- The case-sensitive product-image marker test `'/p/' in url or 'pzsku' in
url` used by image strategies 2 and 3. -/
def hasMarker (u : List Char) : Bool := containsTok pSegL u || containsTok pzskuL u

/-- The string whose integer value strategy 3 parses:
`image_url.split('width=')[1].split('&')[0]`. -/
def widthSeg (u : List Char) : List Char :=
  splitHead ampL ((splitOn widthL u).getD 1 [])

/-- One iteration of the strategy-3 loop body (`bot.py` lines 117-126):
skip images without an absolute `http` source; include an image iff its
`width=` parameter parses to an integer above 200 or its URL carries a
marker; a present but unparsable width raises (the `int(...)` call), which
the model propagates as an error; included URLs get the width upgrade. -/
def strat3Step (img : ImgTag) : Except Unit (Option (List Char)) :=
  match img.src with
  | none => Except.ok none
  | some u =>
    if isPrefL httpL u then
      if containsTok widthL u then
        match pyInt (widthSeg u) with
        | Except.error e => Except.error e
        | Except.ok n =>
          if 200 < n ∨ hasMarker u = true then Except.ok (some (upgradeWidth u))
          else Except.ok none
    else
        if hasMarker u = true then Except.ok (some (upgradeWidth u))
        else Except.ok none
    else Except.ok none

/-- The whole strategy-3 loop: left to right, first raised error aborts. -/
def strat3 : List ImgTag → Except Unit (List (List Char))
  | [] => Except.ok []
  | img :: rest =>
    match strat3Step img with
    | Except.error e => Except.error e
    | Except.ok o =>
      match strat3 rest with
      | Except.error e => Except.error e
      | Except.ok tl =>
        Except.ok (match o with | some u => u :: tl | none => tl)

def c8Url : List Char := "http://img.example/shoe?width=200".toList

/-- C8 as stated is false: at `width=200` exactly (which is not "below 200")
and with no product-image marker in the URL, the code still excludes the
image, because the source tests `> 200`, not `≥ 200`. -/
theorem c8_claim_false :
    strat3Step ⟨some c8Url⟩ = Except.ok none ∧
      pyInt (widthSeg c8Url) = Except.ok 200 :=
  ⟨rfl, rfl⟩

/-- C8 (amended): in strategy 3, an image with an absolute-URL source whose
width parameter (when present) parses as an integer is excluded exactly when
its URL carries no product-image marker and it does not have a width
parameter parsing to a value strictly greater than 200 (so width exactly
200, or an absent width, excludes a marker-less image); images that pass are
collected with the `width=800` upgrade applied. -/
theorem c8_strategy3_filter (u : List Char) (hhttp : isPrefL httpL u = true) :
    (containsTok widthL u = false →
        strat3Step ⟨some u⟩ =
          Except.ok (if hasMarker u = true then some (upgradeWidth u) else none)) ∧
      (∀ n : Int, containsTok widthL u = true → pyInt (widthSeg u) = Except.ok n →
        ((strat3Step ⟨some u⟩ = Except.ok none ↔ hasMarker u = false ∧ n ≤ 200) ∧
          (200 < n ∨ hasMarker u = true →
            strat3Step ⟨some u⟩ = Except.ok (some (upgradeWidth u))))) := by
  have hstep0 : strat3Step ⟨some u⟩ =
      if isPrefL httpL u then
        if containsTok widthL u then
          match pyInt (widthSeg u) with
          | Except.error e => Except.error e
          | Except.ok n =>
            if 200 < n ∨ hasMarker u = true then Except.ok (some (upgradeWidth u))
            else Except.ok none
        else
          if hasMarker u = true then Except.ok (some (upgradeWidth u))
          else Except.ok none
      else Except.ok none := rfl
  rw [if_pos hhttp] at hstep0
  constructor
  · intro hw
    rw [hstep0, hw]
    by_cases hm : hasMarker u = true <;> simp [hm]
  · intro n hw hpy
    rw [hw] at hstep0
    simp only [if_pos] at hstep0
    rw [hpy] at hstep0
    have hstep : strat3Step ⟨some u⟩ =
        if 200 < n ∨ hasMarker u = true then Except.ok (some (upgradeWidth u))
        else Except.ok none := hstep0
    constructor
    · by_cases hm : hasMarker u = true
      · rw [hstep, if_pos (Or.inr hm)]
        simp [hm]
      · have hmf : hasMarker u = false := by
          cases h2 : hasMarker u
          · rfl
          · exact absurd h2 hm
        by_cases hn : 200 < n
        · rw [hstep, if_pos (Or.inl hn)]
          constructor
          · intro hEq; exact absurd hEq (by simp)
          · rintro ⟨-, hle⟩; omega
        · rw [hstep, if_neg (by rintro (h | h); exact hn h; exact hm h)]
          constructor
          · intro _; exact ⟨hmf, by omega⟩
          · intro _; rfl
    · intro hOr
      rw [hstep, if_pos hOr]

def c8WUrl : List Char := "https://cdn.images/p/x?width=300".toList

/-- Witness for C8 (amended) at a concrete URL with marker `/p/` and width
300: the image passes and is collected with the width upgrade. -/
theorem c8_strategy3_filter_witness :
    strat3Step ⟨some c8WUrl⟩ = Except.ok (some (upgradeWidth c8WUrl)) :=
  ((c8_strategy3_filter c8WUrl (by decide)).2 300 (by decide) rfl).2 (Or.inl (by decide))

/-! ### The extractor (`extract_product_info`, `bot.py` lines 45-154)

Parsing itself is done by an external HTML library and never raises; the
abstract `Soup` structure records exactly what the extractor's selector
queries can observe on the parsed page: the selected elements' relevant
attribute and text values (`none` for a missing element or attribute).
Empty HTML or non-HTML garbage is the `Soup` with all fields empty. -/

structure Soup where
  ogTitle : Option MetaTag
  h1Specific : Option (List Char)
  h1Loose : Option (List Char)
  priceSpecific : Option (List Char)
  priceLoose : Option (List Char)
  sizesSpecific : List (List Char)
  sizesLoose : List (List Char)
  galleryImgs : List ImgTag
  ogImages : List MetaTag
  altImgs : List ImgTag
deriving DecidableEq

structure ProductRecord where
  name : List Char
  price : List Char
  sizes : List (List Char)
  image_urls : List (List Char)
deriving DecidableEq

def nameSentinel : List Char := "Product name not found".toList

def priceSentinel : List Char := "Price not found".toList

/-- The heading fallback for the product name (`bot.py` lines 68-71). -/
def nameFromHeadings (soup : Soup) : List Char :=
  match soup.h1Specific with
  | some t => pyStrip t
  | none =>
    match soup.h1Loose with
    | some t => pyStrip t
    | none => nameSentinel

/-- The product name (`bot.py` lines 63-71): prefer the `og:title` content
split at `|` and stripped, else the heading chain. -/
def extractName (soup : Soup) : List Char :=
  match soup.ogTitle with
  | some m =>
    match m.content with
    | some c => pyStrip (splitHead barL c)
    | none => nameFromHeadings soup
  | none => nameFromHeadings soup

/-- The product price (`bot.py` lines 74-77). -/
def extractPrice (soup : Soup) : List Char :=
  match soup.priceSpecific with
  | some t => pyStrip t
  | none =>
    match soup.priceLoose with
    | some t => pyStrip t
    | none => priceSentinel

/-- The enabled size labels (`bot.py` lines 80-87). -/
def extractSizes (soup : Soup) : List (List Char) :=
  (if soup.sizesSpecific.isEmpty then soup.sizesLoose else soup.sizesSpecific).map pyStrip

/-- Image strategy 1 (`bot.py` lines 93-101): gallery images with an
absolute source, width upgraded. -/
def strat1 (imgs : List ImgTag) : List (List Char) :=
  imgs.filterMap (fun img =>
    match img.src with
    | some u => if isPrefL httpL u then some (upgradeWidth u) else none
    | none => none)

/-- Image strategy 2 (`bot.py` lines 105-110): `og:image` metadata with an
absolute URL, no `namshi-logo` token (case-insensitively), and a
case-sensitive product-image marker. -/
def strat2 (metas : List MetaTag) : List (List Char) :=
  metas.filterMap (fun m =>
    match m.content with
    | some c =>
      if isPrefL httpL c && !containsTok logoL (toLowerL c) then
        if hasMarker c = true then some c else none
      else none
    | none => none)

/-- The three image strategies in order, first non-empty result wins, then
the dedup / filter / revert step (`bot.py` lines 90-139).  Only strategy 3
can raise (through `int(...)`). -/
def extractImages (soup : Soup) : Except Unit (List (List Char)) :=
  match
    (if (if (strat1 soup.galleryImgs).isEmpty then strat2 soup.ogImages
         else strat1 soup.galleryImgs).isEmpty then
      strat3 soup.altImgs
    else
      Except.ok (if (strat1 soup.galleryImgs).isEmpty then strat2 soup.ogImages
        else strat1 soup.galleryImgs))
  with
  | Except.error e => Except.error e
  | Except.ok imgs => Except.ok (resolve imgs)

/-- The body of the `try` block of `extract_product_info`. -/
def extractBody (soup : Soup) : Except Unit ProductRecord :=
  match extractImages soup with
  | Except.error e => Except.error e
  | Except.ok imgs =>
    Except.ok ⟨extractName soup, extractPrice soup, extractSizes soup, imgs⟩

/-- The record produced by the `except` handler (`bot.py` lines 149-154). -/
def errorRecord : ProductRecord :=
  ⟨"Error extracting product name".toList, "Error extracting price".toList, [], []⟩

/-- `extract_product_info`: the fetch result (or fetch failure) comes in as
an `Except`; any raise inside the body degrades to the sentinel record. -/
def extract_product_info (inp : Except Unit Soup) : ProductRecord :=
  match inp with
  | Except.error _ => errorRecord
  | Except.ok soup =>
    match extractBody soup with
    | Except.ok r => r
    | Except.error _ => errorRecord

/-- A page whose `og:title` meta tag has an empty `content` attribute
(HTML `<meta property="og:title" content="">`). -/
def c3Soup : Soup := ⟨some ⟨some []⟩, none, none, none, none, [], [], [], [], []⟩

/-- C3 as stated is false: the extracted name is not always non-empty.  On a
page whose `og:title` content is the empty string the code computes
`"".split('|')[0].strip()`, which is empty, so the returned record's `name`
field is the empty string. -/
theorem c3_claim_false : (extract_product_info (Except.ok c3Soup)).name = [] := rfl

theorem nameFromHeadings_empty (soup : Soup) (h : nameFromHeadings soup = []) :
    (∃ t, soup.h1Specific = some t ∧ pyStrip t = []) ∨
      (soup.h1Specific = none ∧ ∃ t, soup.h1Loose = some t ∧ pyStrip t = []) := by
  cases hs : soup.h1Specific with
  | some t =>
    have he : nameFromHeadings soup = pyStrip t := by unfold nameFromHeadings; rw [hs]
    rw [he] at h
    exact Or.inl ⟨t, rfl, h⟩
  | none =>
    cases hl : soup.h1Loose with
    | some t =>
      have he : nameFromHeadings soup = pyStrip t := by unfold nameFromHeadings; rw [hs, hl]
      rw [he] at h
      exact Or.inr ⟨rfl, t, rfl, h⟩
    | none =>
      have he : nameFromHeadings soup = nameSentinel := by unfold nameFromHeadings; rw [hs, hl]
      rw [he] at h
      exact absurd h (by decide)

/-- C3 (amended): extraction never raises — for every input, including a
failing fetch, `extract_product_info` returns a record with all four fields,
either the all-sentinel error record or the record built by the extraction
body; and its `name` can be empty only when the page itself supplies a
title source (`og:title` content, or a heading text) that strips to the
empty string — in every other situation (sentinels included) the name is
non-empty. -/
theorem c3_extract_total (inp : Except Unit Soup) :
    (extract_product_info inp = errorRecord ∨
        ∃ soup, inp = Except.ok soup ∧
          extractBody soup = Except.ok (extract_product_info inp)) ∧
      ((extract_product_info inp).name = [] →
        ∃ soup, inp = Except.ok soup ∧
          ((∃ c, soup.ogTitle = some ⟨some c⟩ ∧ pyStrip (splitHead barL c) = []) ∨
            ((soup.ogTitle = none ∨ soup.ogTitle = some ⟨none⟩) ∧
              ((∃ t, soup.h1Specific = some t ∧ pyStrip t = []) ∨
                (soup.h1Specific = none ∧
                  ∃ t, soup.h1Loose = some t ∧ pyStrip t = []))))) := by
  cases inp with
  | error e =>
    constructor
    · exact Or.inl rfl
    · intro h
      have hE : extract_product_info (Except.error e) = errorRecord := rfl
      rw [hE] at h
      exact absurd h (by decide)
  | ok soup =>
    cases hB : extractBody soup with
    | error e2 =>
      have hE : extract_product_info (Except.ok soup) = errorRecord := by
        show (match extractBody soup with
          | Except.ok r => r
          | Except.error _ => errorRecord) = errorRecord
        rw [hB]
      constructor
      · exact Or.inl hE
      · intro h
        rw [hE] at h
        exact absurd h (by decide)
    | ok r =>
      have hE : extract_product_info (Except.ok soup) = r := by
        show (match extractBody soup with
          | Except.ok r => r
          | Except.error _ => errorRecord) = r
        rw [hB]
      constructor
      · refine Or.inr ⟨soup, rfl, ?_⟩
        rw [hE]
        exact hB
      · intro h
        refine ⟨soup, rfl, ?_⟩
        rw [hE] at h
        have hname : r.name = extractName soup := by
          unfold extractBody at hB
          cases hI : extractImages soup with
          | error e3 => rw [hI] at hB; exact absurd hB (by simp)
          | ok imgs =>
            rw [hI] at hB
            injection hB with h2
            rw [← h2]
        rw [hname] at h
        cases hmt : soup.ogTitle with
        | none =>
          have he : extractName soup = nameFromHeadings soup := by
            unfold extractName; rw [hmt]
          rw [he] at h
          exact Or.inr ⟨Or.inl rfl, nameFromHeadings_empty soup h⟩
        | some m =>
          obtain ⟨mc⟩ := m
          cases mc with
          | none =>
            have he : extractName soup = nameFromHeadings soup := by
              unfold extractName; rw [hmt]
            rw [he] at h
            exact Or.inr ⟨Or.inr rfl, nameFromHeadings_empty soup h⟩
          | some c =>
            have he : extractName soup = pyStrip (splitHead barL c) := by
              unfold extractName; rw [hmt]
            rw [he] at h
            exact Or.inl ⟨c, rfl, h⟩

/-- Witness for C3 (amended) at the concrete empty-`og:title` page: the
characterisation locates the empty title content. -/
theorem c3_extract_witness :
    ∃ soup, (Except.ok c3Soup : Except Unit Soup) = Except.ok soup ∧
      ((∃ c, soup.ogTitle = some ⟨some c⟩ ∧ pyStrip (splitHead barL c) = []) ∨
        ((soup.ogTitle = none ∨ soup.ogTitle = some ⟨none⟩) ∧
          ((∃ t, soup.h1Specific = some t ∧ pyStrip t = []) ∨
            (soup.h1Specific = none ∧
              ∃ t, soup.h1Loose = some t ∧ pyStrip t = [])))) :=
  (c3_extract_total (Except.ok c3Soup)).2 rfl

/-! ### Delivery (`handle_message`, `bot.py` lines 166-242)

Outbound traffic is modelled as a list of `Sent` values: grouped-media
messages (lists of payload/caption pairs) and text messages.  The bytes
type of a downloaded image is an arbitrary type `β`; the per-URL download
(`download_image`, which returns `None` on failure) is a function
`List Char → Option β`. -/

inductive Sent (β : Type) where
  | mediaGroup : List (β × List Char) → Sent β
  | text : List Char → Sent β
deriving DecidableEq

def mediaOf {β : Type} : Sent β → Option (List (β × List Char))
  | Sent.mediaGroup g => some g
  | Sent.text _ => none

def processingMsg : List Char :=
  "Processing your Namshi product URL... Please wait.".toList

def allSentMsg : List Char := "All product information has been sent!".toList

def failMsg : List Char := "Failed to download product images.".toList

def noImagesMsg : List Char := "No product images found.".toList

def guidanceMsg : List Char :=
  "Please send a valid Namshi product URL (e.g., https://www.namshi.com/uae-en/buy-product-name/product-id/p/)".toList

def noSizesMsg : List Char := "No sizes available".toList

/-- Python `", ".flatten(...)`. -/
def joinCommaSpace : List (List Char) → List Char
  | [] => []
  | [x] => x
  | x :: y :: rest => x ++ [',', ' '] ++ joinCommaSpace (y :: rest)

/-- The caption text (`bot.py` lines 179-184). -/
def detailsText (info : ProductRecord) : List Char :=
  ('*' :: info.name) ++ "*\n\n*Price:* ".toList ++ info.price ++
    "\n\n*Available Sizes:* ".toList ++
    (if info.sizes.isEmpty then noSizesMsg else joinCommaSpace info.sizes)

theorem detailsText_ne_nil (info : ProductRecord) : detailsText info ≠ [] := by
  simp [detailsText]

/-- The download loop of `bot.py` lines 192-206: enumerate the URLs, skip
failed downloads, caption the item only when the enumeration index is 0. -/
def buildMG {β : Type} (dl : List Char → Option β) (dt : List Char) :
    Nat → List (List Char) → List (β × List Char)
  | _, [] => []
  | i, u :: rest =>
    match dl u with
    | some d => (d, if i = 0 then dt else []) :: buildMG dl dt (i + 1) rest
    | none => buildMG dl dt (i + 1) rest

def buildMediaGroup {β : Type} (dl : List Char → Option β) (dt : List Char)
    (urls : List (List Char)) : List (β × List Char) :=
  buildMG dl dt 0 urls

/-- The slicing loop `media_group[i:i+10] for i in range(0, len, 10)`
(`bot.py` lines 217-218), written with an explicit capacity counter so the
recursion is structural: `acc` is the current chunk reversed and `n` the
remaining capacity before the chunk holds 10 items. -/
def sliceGo {α : Type} : List α → Nat → List α → List (List α)
  | acc, _, [] => [acc.reverse]
  | acc, 0, y :: ys => acc.reverse :: sliceGo [y] 9 ys
  | acc, n + 1, y :: ys => sliceGo (y :: acc) n ys

/-- `bot.py` lines 210-222: one grouped send if at most 10 items, else the
slices of 10. -/
def sendBatches {α : Type} (l : List α) : List (List α) :=
  if l.length ≤ 10 then [l]
  else
    match l with
    | [] => []
    | x :: xs => sliceGo [x] 9 xs

/-- The delivery tail of `handle_message` (`bot.py` lines 190-232). -/
def deliver {β : Type} (dl : List Char → Option β) (info : ProductRecord) :
    List (Sent β) :=
  if info.image_urls.isEmpty then
    [Sent.text (detailsText info), Sent.text noImagesMsg]
  else if (buildMediaGroup dl (detailsText info) info.image_urls).isEmpty then
    [Sent.text (detailsText info), Sent.text failMsg]
  else
    (sendBatches (buildMediaGroup dl (detailsText info) info.image_urls)).map
        Sent.mediaGroup ++
      [Sent.text allSentMsg]

/-- All media items actually delivered, in order. -/
def deliveredMedia {β : Type} (sends : List (Sent β)) : List (β × List Char) :=
  (sends.filterMap mediaOf).flatten

/-- Number of delivered media items carrying a non-empty caption. -/
def captionedCount {β : Type} (items : List (β × List Char)) : Nat :=
  (items.filter (fun it => !it.2.isEmpty)).length

theorem sliceGo_flatten {α : Type} (ys : List α) :
    ∀ (acc : List α) (n : Nat), (sliceGo acc n ys).flatten = acc.reverse ++ ys := by
  induction ys with
  | nil => intro acc n; cases n <;> simp [sliceGo]
  | cons y ys ih =>
    intro acc n
    cases n with
    | zero => simp [sliceGo, ih]
    | succ n => simp [sliceGo, ih (y :: acc) n]

theorem sliceGo_length {α : Type} (ys : List α) :
    ∀ (acc : List α) (n : Nat), acc.length + n = 10 → n ≤ 9 →
      (sliceGo acc n ys).length = (acc.length + ys.length + 9) / 10 := by
  induction ys with
  | nil =>
    intro acc n h1 h2
    simp only [sliceGo, List.length_singleton, List.length_nil]
    omega
  | cons y ys ih =>
    intro acc n h1 h2
    cases n with
    | zero =>
      have h3 := ih [y] 9 (by simp) (by omega)
      simp only [List.length_singleton] at h3
      simp only [sliceGo, List.length_cons, h3]
      omega
    | succ n =>
      have h3 := ih (y :: acc) n (by simp; omega) (by omega)
      simp only [List.length_cons] at h3
      simp only [sliceGo, List.length_cons, h3]
      omega

theorem sliceGo_chunk_le {α : Type} (ys : List α) :
    ∀ (acc : List α) (n : Nat), acc.length + n = 10 →
      ∀ c ∈ sliceGo acc n ys, c.length ≤ 10 := by
  induction ys with
  | nil =>
    intro acc n h1 c hc
    simp only [sliceGo, List.mem_singleton] at hc
    subst hc
    simp
    omega
  | cons y ys ih =>
    intro acc n h1 c hc
    cases n with
    | zero =>
      simp only [sliceGo, List.mem_cons] at hc
      rcases hc with rfl | hc
      · simp; omega
      · exact ih [y] 9 (by simp) c hc
    | succ n =>
      simp only [sliceGo] at hc
      exact ih (y :: acc) n (by simp; omega) c hc

theorem sliceGo_nonfinal {α : Type} (ys : List α) :
    ∀ (acc : List α) (n : Nat), acc.length + n = 10 →
      ∀ i, i + 1 < (sliceGo acc n ys).length →
        ((sliceGo acc n ys).getD i []).length = 10 := by
  induction ys with
  | nil =>
    intro acc n h1 i hi
    simp [sliceGo] at hi
  | cons y ys ih =>
    intro acc n h1 i hi
    cases n with
    | zero =>
      simp only [sliceGo] at hi ⊢
      cases i with
      | zero =>
        simp only [List.getD_cons_zero, List.length_reverse]
        omega
      | succ i =>
        simp only [List.getD_cons_succ]
        apply ih [y] 9 (by simp)
        simp only [List.length_cons] at hi
        omega
    | succ n =>
      simp only [sliceGo] at hi ⊢
      exact ih (y :: acc) n (by simp; omega) i hi

theorem sendBatches_flatten {α : Type} (l : List α) : (sendBatches l).flatten = l := by
  cases l with
  | nil => rfl
  | cons x xs =>
    by_cases h : (x :: xs).length ≤ 10
    · have he : sendBatches (x :: xs) = [x :: xs] := by unfold sendBatches; rw [if_pos h]
      rw [he]
      simp
    · have he : sendBatches (x :: xs) = sliceGo [x] 9 xs := by unfold sendBatches; rw [if_neg h]
      rw [he, sliceGo_flatten]
      simp

theorem sendBatches_length {α : Type} (x : α) (xs : List α) :
    (sendBatches (x :: xs)).length = ((x :: xs).length + 9) / 10 := by
  by_cases h : (x :: xs).length ≤ 10
  · have he : sendBatches (x :: xs) = [x :: xs] := by unfold sendBatches; rw [if_pos h]
    rw [he]
    simp only [List.length_singleton, List.length_cons, List.length_nil]
    simp only [List.length_cons] at h
    omega
  · have he : sendBatches (x :: xs) = sliceGo [x] 9 xs := by unfold sendBatches; rw [if_neg h]
    rw [he, sliceGo_length xs [x] 9 (by simp) (by omega)]
    simp only [List.length_singleton, List.length_cons, List.length_nil]
    omega

theorem sendBatches_chunk_le {α : Type} (l : List α) :
    ∀ c ∈ sendBatches l, c.length ≤ 10 := by
  by_cases h : l.length ≤ 10
  · have he : sendBatches l = [l] := by unfold sendBatches; rw [if_pos h]
    rw [he]
    intro c hc
    simp only [List.mem_singleton] at hc
    subst hc
    exact h
  · cases l with
    | nil => simp at h
    | cons x xs =>
      have he : sendBatches (x :: xs) = sliceGo [x] 9 xs := by unfold sendBatches; rw [if_neg h]
      rw [he]
      exact sliceGo_chunk_le xs [x] 9 (by simp)

theorem sendBatches_nonfinal {α : Type} (l : List α) :
    ∀ i, i + 1 < (sendBatches l).length → ((sendBatches l).getD i []).length = 10 := by
  by_cases h : l.length ≤ 10
  · have he : sendBatches l = [l] := by unfold sendBatches; rw [if_pos h]
    rw [he]
    intro i hi
    simp at hi
  · cases l with
    | nil => simp at h
    | cons x xs =>
      have he : sendBatches (x :: xs) = sliceGo [x] 9 xs := by unfold sendBatches; rw [if_neg h]
      rw [he]
      exact sliceGo_nonfinal xs [x] 9 (by simp)

theorem filterMap_mediaOf_map {β : Type} (bs : List (List (β × List Char))) :
    (bs.map Sent.mediaGroup).filterMap mediaOf = bs := by
  induction bs with
  | nil => rfl
  | cons b bs ih => simp [mediaOf, ih]

theorem deliver_media_eq {β : Type} (dl : List Char → Option β) (info : ProductRecord)
    (hmg : buildMediaGroup dl (detailsText info) info.image_urls ≠ []) :
    (deliver dl info).filterMap mediaOf =
      sendBatches (buildMediaGroup dl (detailsText info) info.image_urls) := by
  have hurl : info.image_urls ≠ [] := by
    intro h
    apply hmg
    rw [h]
    rfl
  unfold deliver
  rw [if_neg (by simp [List.isEmpty_iff, hurl]), if_neg (by simp [List.isEmpty_iff, hmg])]
  rw [List.filterMap_append, filterMap_mediaOf_map]
  simp [mediaOf]

theorem buildMG_tail_nocap {β : Type} (dl : List Char → Option β) (dt : List Char)
    (xs : List (List Char)) :
    ∀ i, i ≠ 0 → ∀ it ∈ buildMG dl dt i xs, it.2 = [] := by
  induction xs with
  | nil =>
    intro i _ it hit
    simp [buildMG] at hit
  | cons x xs ih =>
    intro i hi it hit
    simp only [buildMG] at hit
    cases hdx : dl x with
    | none =>
      rw [hdx] at hit
      exact ih (i + 1) (by omega) it hit
    | some d =>
      rw [hdx] at hit
      have hit2 : it ∈ ((d, if i = 0 then dt else []) :: buildMG dl dt (i + 1) xs) := hit
      rcases List.mem_cons.mp hit2 with rfl | hit3
      · simp [if_neg hi]
      · exact ih (i + 1) (by omega) it hit3

theorem buildMG_caption_cases {β : Type} (dl : List Char → Option β) (dt : List Char)
    (xs : List (List Char)) :
    ∀ i, ∀ it ∈ buildMG dl dt i xs, it.2 = dt ∨ it.2 = [] := by
  induction xs with
  | nil =>
    intro i it hit
    simp [buildMG] at hit
  | cons x xs ih =>
    intro i it hit
    simp only [buildMG] at hit
    cases hdx : dl x with
    | none =>
      rw [hdx] at hit
      exact ih (i + 1) it hit
    | some d =>
      rw [hdx] at hit
      have hit2 : it ∈ ((d, if i = 0 then dt else []) :: buildMG dl dt (i + 1) xs) := hit
      rcases List.mem_cons.mp hit2 with rfl | hit3
      · by_cases h0 : i = 0
        · exact Or.inl (by simp [h0])
        · exact Or.inr (by simp [h0])
      · exact ih (i + 1) it hit3

theorem captionedCount_zero {β : Type} (items : List (β × List Char))
    (h : ∀ it ∈ items, it.2 = []) : captionedCount items = 0 := by
  unfold captionedCount
  have he : items.filter (fun it => !it.2.isEmpty) = [] := by
    apply List.filter_eq_nil_iff.mpr
    intro it hit
    simp [h it hit]
  rw [he]
  rfl

theorem buildMG_head_count {β : Type} (dl : List Char → Option β) (dt : List Char)
    (hdt : dt ≠ []) (u : List Char) (rest : List (List Char)) :
    captionedCount (buildMG dl dt 0 (u :: rest)) = if (dl u).isSome then 1 else 0 := by
  have htail := buildMG_tail_nocap dl dt rest 1 (by omega)
  cases hdx : dl u with
  | none =>
    have he : buildMG dl dt 0 (u :: rest) = buildMG dl dt 1 rest := by
      simp only [buildMG, hdx]
    rw [he]
    simp only [Option.isSome_none, Bool.false_eq_true, if_false]
    exact captionedCount_zero _ htail
  | some d =>
    have he : buildMG dl dt 0 (u :: rest) = (d, dt) :: buildMG dl dt 1 rest := by
      simp only [buildMG, hdx]
      simp
    rw [he]
    simp only [Option.isSome_some, if_true]
    have hb : (!dt.isEmpty) = true := by
      cases dt with
      | nil => exact absurd rfl hdt
      | cons a as => rfl
    have htail0 : (buildMG dl dt 1 rest).filter (fun it => !it.2.isEmpty) = [] := by
      apply List.filter_eq_nil_iff.mpr
      intro it hit
      simp [htail it hit]
    unfold captionedCount
    rw [List.filter_cons]
    simp [hb, htail0]

theorem buildMG_head_some {β : Type} (dl : List Char → Option β) (dt : List Char)
    (u : List Char) (rest : List (List Char)) (d : β) (hd : dl u = some d) :
    buildMG dl dt 0 (u :: rest) = (d, dt) :: buildMG dl dt 1 rest := by
  simp only [buildMG, hd]
  simp

theorem deliveredMedia_deliver {β : Type} (dl : List Char → Option β)
    (info : ProductRecord) (hurl : info.image_urls ≠ []) :
    deliveredMedia (deliver dl info) =
      buildMediaGroup dl (detailsText info) info.image_urls := by
  by_cases hmg : buildMediaGroup dl (detailsText info) info.image_urls = []
  · unfold deliver
    rw [if_neg (by simp [List.isEmpty_iff, hurl]), if_pos (by simp [List.isEmpty_iff, hmg])]
    rw [hmg]
    rfl
  · unfold deliveredMedia
    rw [deliver_media_eq dl info hmg, sendBatches_flatten]

/-- C4: for every non-empty list of successfully downloaded media items,
the program produces exactly `⌈N/10⌉` grouped-media chunks, every chunk has
at most 10 items, every non-final chunk has exactly 10, their concatenation
in order is exactly the downloaded list, and these chunks (in this order)
are exactly the grouped-media messages the delivery step sends. -/
theorem c4_batching {β : Type} (mg : List (β × List Char)) (h : mg ≠ []) :
    (sendBatches mg).length = (mg.length + 9) / 10 ∧
      (∀ c ∈ sendBatches mg, c.length ≤ 10) ∧
      (∀ i, i + 1 < (sendBatches mg).length → ((sendBatches mg).getD i []).length = 10) ∧
      (sendBatches mg).flatten = mg ∧
      ∀ (dl : List Char → Option β) (info : ProductRecord),
        buildMediaGroup dl (detailsText info) info.image_urls = mg →
        (deliver dl info).filterMap mediaOf = sendBatches mg := by
  obtain ⟨x, xs, rfl⟩ := List.exists_cons_of_ne_nil h
  refine ⟨sendBatches_length x xs, sendBatches_chunk_le _, sendBatches_nonfinal _,
    sendBatches_flatten _, ?_⟩
  intro dl info hbm
  rw [← hbm]
  exact deliver_media_eq dl info (by rw [hbm]; exact h)

def c4Mg : List (Unit × List Char) := [((), [])]

/-- Witness for C4 at a concrete one-item media group. -/
theorem c4_batching_witness : (sendBatches c4Mg).length = (c4Mg.length + 9) / 10 :=
  (c4_batching c4Mg (by decide)).1

/-- C1 (amended): when the resolved image-URL list is non-empty, the number
of delivered media items carrying a (non-empty) caption is 1 if the download
of the **first URL in the list** succeeds and 0 if it fails — the code
captions index 0 of the URL enumeration, not the first successful download;
every delivered item's caption is either the details text or empty; when the
first URL's download succeeds the captioned item is the first delivered
item; and when no image at all was downloaded the caption is sent as a
standalone text message followed by the failure notice. -/
theorem c1_caption_placement {β : Type} (dl : List Char → Option β)
    (info : ProductRecord) (u : List Char) (rest : List (List Char))
    (h : info.image_urls = u :: rest) :
    captionedCount (deliveredMedia (deliver dl info)) =
        (if (dl u).isSome then 1 else 0) ∧
      (∀ it ∈ deliveredMedia (deliver dl info),
        it.2 = detailsText info ∨ it.2 = []) ∧
      (∀ d, dl u = some d →
        (deliveredMedia (deliver dl info)).head? = some (d, detailsText info)) ∧
      (buildMediaGroup dl (detailsText info) info.image_urls = [] →
        deliver dl info = [Sent.text (detailsText info), Sent.text failMsg]) := by
  have hurl : info.image_urls ≠ [] := by rw [h]; simp
  have hDM : deliveredMedia (deliver dl info) =
      buildMediaGroup dl (detailsText info) info.image_urls :=
    deliveredMedia_deliver dl info hurl
  refine ⟨?_, ?_, ?_, ?_⟩
  · rw [hDM]
    unfold buildMediaGroup
    rw [h]
    exact buildMG_head_count dl (detailsText info) (detailsText_ne_nil info) u rest
  · rw [hDM]
    unfold buildMediaGroup
    exact buildMG_caption_cases dl (detailsText info) info.image_urls 0
  · intro d hd
    rw [hDM]
    unfold buildMediaGroup
    rw [h, buildMG_head_some dl (detailsText info) u rest d hd]
    rfl
  · intro hmg
    unfold deliver
    rw [if_neg (by simp [List.isEmpty_iff, hurl]), if_pos (by simp [List.isEmpty_iff, hmg])]

def c1WUrl : List Char := "http://a/p/w.jpg".toList

def c1WInfo : ProductRecord := ⟨['N'], ['9'], [], [c1WUrl]⟩

def c1WDl : List Char → Option Unit := fun _ => some ()

/-- Witness for C1 (amended) at a one-URL record whose download succeeds. -/
theorem c1_caption_placement_witness :
    captionedCount (deliveredMedia (deliver c1WDl c1WInfo)) =
      (if (c1WDl c1WUrl).isSome then 1 else 0) :=
  (c1_caption_placement c1WDl c1WInfo c1WUrl [] rfl).1

def c1Xu1 : List Char := "http://a/p/1.jpg".toList

def c1Xu2 : List Char := "http://a/p/2.jpg".toList

def c1XInfo : ProductRecord := ⟨['N'], ['9'], [], [c1Xu1, c1Xu2]⟩

def c1XDl : List Char → Option Unit := fun u => if u = c1Xu2 then some () else none

/-- C1 as stated is false: with two resolved URLs where the first download
fails and the second succeeds, a non-empty media sequence is delivered but
no delivered image carries the caption (the claim demands exactly one). -/
theorem c1_claim_false :
    deliveredMedia (deliver c1XDl c1XInfo) ≠ [] ∧
      captionedCount (deliveredMedia (deliver c1XDl c1XInfo)) = 0 := by
  decide

/-! ### The orchestrator (`handle_message`, `bot.py` lines 166-242)

The sends themselves are modelled as succeeding (delivery-transport failure
is out of scope); the final `delete_message` call, which `bot.py` does not
wrap in any `try`, is modelled by the `deleteOk` input, and the second
component of the result records whether the handler raises. -/

def handlerRun {β : Type} (fetch : Except Unit Soup) (dl : List Char → Option β)
    (deleteOk : Bool) (msg : List Char) : List (Sent β) × Bool :=
  if is_namshi_url msg then
    (Sent.text processingMsg :: deliver dl (extract_product_info fetch), !deleteOk)
  else
    ([Sent.text guidanceMsg], false)

/-- C9 (amended): the handler raises exactly when the message was an
eligible URL (so the delete is attempted) and the delete operation fails —
the deletion failure is not caught, so it escalates out of the handler. -/
theorem c9_delete_propagates {β : Type} (fetch : Except Unit Soup)
    (dl : List Char → Option β) (deleteOk : Bool) (msg : List Char) :
    (handlerRun fetch dl deleteOk msg).2 = (is_namshi_url msg && !deleteOk) := by
  unfold handlerRun
  cases hm : is_namshi_url msg <;> simp [hm]

def c9Url : List Char := "https://www.namshi.com/uae-en/buy-shoe/123/p/".toList

def c9Run : List (Sent Unit) × Bool :=
  handlerRun (Except.error ()) (fun _ => none) false c9Url

/-- C9 as stated is false: on a valid product URL whose processing-message
deletion fails, the handler raises (the delete call has no surrounding
`try`), contradicting the claim that the failure is not escalated. -/
theorem c9_claim_false : c9Run.2 = true := by decide
